import Mathlib

/-!
Verification of the order-spreadsheet "picking sheet" pipeline.

Python strings are modelled as `List Char` (`PyStr`), pandas tables as Lean
lists of records, machine text comparisons as code-point comparisons (the data
handled by the program is ASCII plus fixed Korean literals), and fallible
conversions as `Except`.  The sort performed by
`DataFrame.sort_values(kind="mergesort")` is modelled by the stable
`List.mergeSort` of the Lean core library.
-/

namespace PickSpec

/-- Model of a Python `str`: its list of characters. -/
abbrev PyStr := List Char

/-- Whitespace as removed by Python's `str.strip()` (ASCII fragment:
space and the control characters 9-13). -/
def pyWS (c : Char) : Bool :=
  decide (c.toNat = 32 ∨ (9 ≤ c.toNat ∧ c.toNat ≤ 13))

/-- Python `str.strip()`: drop whitespace from both ends. -/
def stripCL (l : PyStr) : PyStr :=
  ((l.dropWhile pyWS).reverse.dropWhile pyWS).reverse

/-- Python `str.upper()` on one character (ASCII fragment). -/
def upChar (c : Char) : Char :=
  if 97 ≤ c.toNat ∧ c.toNat ≤ 122 then Char.ofNat (c.toNat - 32) else c

/-- Python `str.lower()` on one character (ASCII fragment). -/
def lowChar (c : Char) : Char :=
  if 65 ≤ c.toNat ∧ c.toNat ≤ 90 then Char.ofNat (c.toNat + 32) else c

/-- Python `str.upper()`. -/
def upperCL (l : PyStr) : PyStr := l.map upChar

/-- Python `str.lower()`. -/
def lowerCL (l : PyStr) : PyStr := l.map lowChar

/-- Python's substring test `needle in hay`. -/
def containsSub : PyStr → PyStr → Bool
  | ns, [] => ns.isEmpty
  | ns, c :: t => ns.isPrefixOf (c :: t) || containsSub ns t

/-- Accumulator loop of the base-26 decoders of `pick.py` and
`app_customizable.py`: `n = n * 26 + (ord(ch) - ord('A') + 1)`. -/
def colVal (l : PyStr) : Nat :=
  l.foldl (fun n c => n * 26 + (c.toNat - 64)) 0

/-- The shape accepted by `re.fullmatch(r"[A-Z]+", col_letters)` in
`excel_col_to_index` (app_customizable.py): non-empty, all characters A-Z. -/
def isColLetters (l : PyStr) : Bool :=
  !l.isEmpty && l.all (fun c => decide (65 ≤ c.toNat ∧ c.toNat ≤ 90))

/-- The function `excel_col_to_index` of `src/excel-converter/app_customizable.py`
(lines 22-29): strip, upcase, reject anything that is not `[A-Z]+`, then
decode base-26 and subtract one. -/
def excel_col_to_index (s : PyStr) : Except PyStr Nat :=
  let t := upperCL (stripCL s)
  if isColLetters t then .ok (colVal t - 1)
  else .error ("Invalid Excel column letters: ".data ++ s)

/-- The function `excel_col_to_zero_index` of `src/pick.py` (lines 16-24) and
`src/app.py` (lines 36-44): strip, upcase, fail on any character outside A-Z,
return the base-26 value minus one (an `Int`, since the empty string yields -1). -/
def excel_col_to_zero_index (s : PyStr) : Except PyStr Int :=
  let t := upperCL (stripCL s)
  if t.all (fun c => decide (65 ≤ c.toNat ∧ c.toNat ≤ 90)) then
    .ok ((colVal t : Int) - 1)
  else .error ("Invalid column letter: ".data ++ s)

/-- Loop of `index_to_excel_col` (app_customizable.py lines 31-37):
`while n > 0: n, r = divmod(n - 1, 26); s = chr(r + 65) + s`. -/
def colLoop : Nat → PyStr → PyStr
  | 0, acc => acc
  | n + 1, acc => colLoop (n / 26) (Char.ofNat (n % 26 + 65) :: acc)
termination_by n _ => n
decreasing_by exact Nat.lt_succ_of_le (Nat.div_le_self _ _)

/-- The function `index_to_excel_col` of `src/excel-converter/app_customizable.py`
(lines 31-37): `n += 1` and then the divmod loop. -/
def index_to_excel_col (n : Nat) : PyStr := colLoop (n + 1) []

/-- Per-letter column resolution inside `convert_laora`
(app_customizable.py lines 610-618): decode the letters, then fail when the
zero-based index is not below the source column count. -/
def convert_laora_resolve (ncols : Nat) (letters : PyStr) : Except PyStr Nat :=
  match excel_col_to_index letters with
  | .error e => .error e
  | .ok idx => if ncols ≤ idx then .error "column index out of range".data else .ok idx

/-- Whether an `Except` result is a success. -/
def isOkE {ε α : Type} : Except ε α → Bool
  | .ok _ => true
  | .error _ => false

/-! ### Lemmas about the column-letter codec -/

theorem dropWhile_eq_self_of {p : Char → Bool} :
    ∀ {l : PyStr}, (∀ c ∈ l, p c = false) → l.dropWhile p = l
  | [], _ => rfl
  | c :: t, h => by
    simp [List.dropWhile, h c (by simp)]

theorem stripCL_eq_self {l : PyStr} (h : ∀ c ∈ l, pyWS c = false) :
    stripCL l = l := by
  unfold stripCL
  rw [dropWhile_eq_self_of h, dropWhile_eq_self_of (by simpa using h),
    List.reverse_reverse]

theorem upChar_eq_self {c : Char} (h1 : 65 ≤ c.toNat) (h2 : c.toNat ≤ 90) :
    upChar c = c := by
  unfold upChar
  rw [if_neg (by omega)]

theorem pyWS_letter {c : Char} (h1 : 65 ≤ c.toNat) (h2 : c.toNat ≤ 90) :
    pyWS c = false := by
  unfold pyWS
  simp only [decide_eq_false_iff_not]
  omega

theorem upperCL_eq_self {l : PyStr}
    (h : ∀ c ∈ l, 65 ≤ c.toNat ∧ c.toNat ≤ 90) : upperCL l = l := by
  unfold upperCL
  induction l with
  | nil => rfl
  | cons c t ih =>
    simp only [List.map_cons, List.cons.injEq]
    exact ⟨upChar_eq_self (h c (by simp)).1 (h c (by simp)).2,
      ih (fun d hd => h d (by simp [hd]))⟩

theorem char_ofNat_letter_toNat {r : Nat} (h : r < 26) :
    (Char.ofNat (r + 65)).toNat = r + 65 := by
  interval_cases r <;> decide

theorem char_ofNat_letter_bounds {r : Nat} (h : r < 26) :
    65 ≤ (Char.ofNat (r + 65)).toNat ∧ (Char.ofNat (r + 65)).toNat ≤ 90 := by
  interval_cases r <;> decide

theorem colLoop_append : ∀ (m : Nat) (acc : PyStr),
    colLoop m acc = colLoop m [] ++ acc
  | 0, acc => by simp [colLoop]
  | n + 1, acc => by
    rw [colLoop, colLoop]
    rw [colLoop_append (n / 26) (Char.ofNat (n % 26 + 65) :: acc),
      colLoop_append (n / 26) [Char.ofNat (n % 26 + 65)]]
    simp
termination_by m _ => m
decreasing_by all_goals exact Nat.lt_succ_of_le (Nat.div_le_self _ _)

theorem colValFrom_append (a : Nat) (l1 l2 : PyStr) :
    (l1 ++ l2).foldl (fun n c => n * 26 + (c.toNat - 64)) a
      = l2.foldl (fun n c => n * 26 + (c.toNat - 64))
          (l1.foldl (fun n c => n * 26 + (c.toNat - 64)) a) :=
  List.foldl_append ..

theorem colVal_colLoop : ∀ m : Nat, colVal (colLoop m []) = m
  | 0 => by simp [colLoop, colVal]
  | n + 1 => by
    rw [colLoop, colLoop_append]
    unfold colVal
    rw [colValFrom_append]
    have hrec : colVal (colLoop (n / 26) []) = n / 26 := colVal_colLoop (n / 26)
    unfold colVal at hrec
    rw [hrec]
    simp only [List.foldl_cons, List.foldl_nil]
    rw [char_ofNat_letter_toNat (Nat.mod_lt _ (by omega))]
    omega
termination_by m => m
decreasing_by exact Nat.lt_succ_of_le (Nat.div_le_self _ _)

theorem colLoop_letters : ∀ m : Nat, ∀ c ∈ colLoop m [], 65 ≤ c.toNat ∧ c.toNat ≤ 90
  | 0 => by intro c hc; simp [colLoop] at hc
  | n + 1 => by
    intro c hc
    rw [colLoop, colLoop_append] at hc
    rcases List.mem_append.1 hc with h | h
    · exact colLoop_letters (n / 26) c h
    · simp only [List.mem_singleton] at h
      subst h
      exact char_ofNat_letter_bounds (Nat.mod_lt _ (by omega))
termination_by m => m
decreasing_by exact Nat.lt_succ_of_le (Nat.div_le_self _ _)

theorem colLoop_ne_nil (n : Nat) : colLoop (n + 1) [] ≠ [] := by
  rw [colLoop, colLoop_append]
  simp

theorem isColLetters_iff {l : PyStr} :
    isColLetters l = true ↔ l ≠ [] ∧ ∀ c ∈ l, 65 ≤ c.toNat ∧ c.toNat ≤ 90 := by
  unfold isColLetters
  simp [List.all_eq_true, List.isEmpty_iff]

theorem le_colValFrom : ∀ (l : PyStr) (a : Nat),
    a ≤ l.foldl (fun n c => n * 26 + (c.toNat - 64)) a
  | [], a => le_refl a
  | c :: t, a => by
    simp only [List.foldl_cons]
    exact le_trans (by nlinarith) (le_colValFrom t (a * 26 + (c.toNat - 64)))

theorem colVal_pos {l : PyStr} (hne : l ≠ [])
    (h : ∀ c ∈ l, 65 ≤ c.toNat ∧ c.toNat ≤ 90) : 1 ≤ colVal l := by
  match l, hne with
  | c :: t, _ =>
    unfold colVal
    simp only [List.foldl_cons]
    refine le_trans ?_ (le_colValFrom t _)
    have := (h c (by simp)).1
    omega

theorem colLoop_colVal : ∀ {s : PyStr},
    (∀ c ∈ s, 65 ≤ c.toNat ∧ c.toNat ≤ 90) → colLoop (colVal s) [] = s := by
  intro s
  induction s using List.reverseRecOn with
  | nil => intro _; simp [colLoop, colVal]
  | append_singleton t c ih =>
    intro h
    have hc := h c (by simp)
    have ht : ∀ d ∈ t, 65 ≤ d.toNat ∧ d.toNat ≤ 90 := fun d hd => h d (by simp [hd])
    have hval : colVal (t ++ [c]) = colVal t * 26 + (c.toNat - 64) := by
      unfold colVal
      rw [colValFrom_append]
      simp
    set d := colVal t with hd
    set v := c.toNat - 64 with hv
    have hv1 : 1 ≤ v := by omega
    have hv26 : v ≤ 26 := by omega
    obtain ⟨n, hn⟩ : ∃ n, d * 26 + v = n + 1 := ⟨d * 26 + v - 1, by omega⟩
    rw [hval, hn, colLoop, colLoop_append]
    have hdiv : n / 26 = d := by omega
    have hmod : n % 26 = v - 1 := by omega
    have hchar : Char.ofNat (n % 26 + 65) = c := by
      rw [hmod]
      have : v - 1 + 65 = c.toNat := by omega
      rw [this, Char.ofNat_toNat]
    rw [hdiv, hchar, ih ht]

/-- C5. Column-letter decoding is a bijection between canonical letter strings
and zero-based indices: `A` decodes to 0, `Z` to 25, `AA` to 26; decoding is a
left inverse of `index_to_excel_col` on every index; and on every canonical
letter string (non-empty, all A-Z) decoding succeeds — in both the
`excel_col_to_index` and the `excel_col_to_zero_index` variant — and encoding
the result gives back the string. -/
theorem col_codec_bijection :
    excel_col_to_index "A".data = .ok 0
  ∧ excel_col_to_index "Z".data = .ok 25
  ∧ excel_col_to_index "AA".data = .ok 26
  ∧ (∀ n : Nat, excel_col_to_index (index_to_excel_col n) = .ok n)
  ∧ (∀ s : PyStr, isColLetters s = true →
      excel_col_to_index s = .ok (colVal s - 1)
      ∧ excel_col_to_zero_index s = .ok ((colVal s : Int) - 1)
      ∧ index_to_excel_col (colVal s - 1) = s) := by
  refine ⟨by rfl, by rfl, by rfl, ?_, ?_⟩
  · intro n
    unfold excel_col_to_index index_to_excel_col
    have hl := colLoop_letters (n + 1)
    have hne := colLoop_ne_nil n
    rw [stripCL_eq_self (fun c hc => pyWS_letter (hl c hc).1 (hl c hc).2),
      upperCL_eq_self hl]
    rw [if_pos (isColLetters_iff.2 ⟨hne, hl⟩), colVal_colLoop]
    simp
  · intro s hs
    obtain ⟨hne, hl⟩ := isColLetters_iff.1 hs
    have hstrip : stripCL s = s :=
      stripCL_eq_self (fun c hc => pyWS_letter (hl c hc).1 (hl c hc).2)
    have hupper : upperCL s = s := upperCL_eq_self hl
    refine ⟨?_, ?_, ?_⟩
    · unfold excel_col_to_index
      rw [hstrip, hupper, if_pos hs]
    · unfold excel_col_to_zero_index
      rw [hstrip, hupper,
        if_pos (by simpa [List.all_eq_true] using hl)]
    · unfold index_to_excel_col
      have h1 : colVal s - 1 + 1 = colVal s := by
        have := colVal_pos hne hl
        omega
      rw [h1, colLoop_colVal hl]

/-- Witness for C5 at the canonical string `AB`. -/
theorem col_codec_bijection_witness :
    isColLetters "AB".data = true
  ∧ excel_col_to_index "AB".data = .ok (colVal "AB".data - 1)
  ∧ excel_col_to_zero_index "AB".data = .ok ((colVal "AB".data : Int) - 1)
  ∧ index_to_excel_col (colVal "AB".data - 1) = "AB".data :=
  ⟨by decide, col_codec_bijection.2.2.2.2 "AB".data (by decide)⟩

/-- C6. The per-letter conversion of the Column Projector (`convert_laora`)
succeeds exactly when the letters normalize (strip + upcase) to a non-empty
A-Z string whose decoded zero-based index is below the input column count;
otherwise it fails with a configuration error. -/
theorem convert_laora_resolve_ok_iff (ncols : Nat) (s : PyStr) :
    isOkE (convert_laora_resolve ncols s) = true
      ↔ (isColLetters (upperCL (stripCL s)) = true
          ∧ colVal (upperCL (stripCL s)) - 1 < ncols) := by
  by_cases h : isColLetters (upperCL (stripCL s)) = true
  · by_cases h2 : ncols ≤ colVal (upperCL (stripCL s)) - 1
    · simp [convert_laora_resolve, excel_col_to_index, isOkE, h, h2]
      try omega
    · simp [convert_laora_resolve, excel_col_to_index, isOkE, h, h2]
      try omega
  · simp [convert_laora_resolve, excel_col_to_index, isOkE, h]

/-! ### The picking-sheet pipeline (pick.py / app.py) -/

/-- A pandas cell: either a number or free text.  Quantity cells may hold
either kind; `pd.to_numeric(..., errors="coerce")` distinguishes them. -/
inductive Val where
  | num (n : Int)
  | str (s : PyStr)
deriving DecidableEq

/-- One projected input record of `build_picking_dataframe` (app.py lines
47-61): the seven logical columns.  The two sort keys keep their
machine types: the order-linkage code (상품연동코드) is numeric and the
address (주소) is text. -/
structure Row where
  code : Int
  prod : PyStr
  opt : PyStr
  qty : Val
  recip : PyStr
  addr : PyStr
  note : PyStr
deriving DecidableEq

/-- One output record: every field is a cell, since subtotal rows put text
into the numeric columns and numbers into the product column's neighbours. -/
structure ORow where
  code : Val
  prod : Val
  opt : Val
  qty : Val
  recip : Val
  addr : Val
  note : Val
deriving DecidableEq

/-- The comparison used by
`df_sel.sort_values(by=["주소", "상품연동코드"], ascending=[True, False])`:
address ascending, order-linkage code descending. -/
def rowLE (x y : Row) : Bool :=
  decide (x.addr < y.addr) || (decide (x.addr = y.addr) && decide (y.code ≤ x.code))

/-- The sort step of `build_picking_dataframe` / `build_picking_sheet`:
a stable mergesort (`kind="mergesort"`) under `rowLE`. -/
def sortRows (rs : List Row) : List Row := rs.mergeSort rowLE

/-- Model of `pd.to_numeric(cell, errors="coerce")` on one cell: numbers pass
through, text parses as an integer or coerces to NaN (`none`). -/
def toNumCell : Val → Option Int
  | .num n => some n
  | .str s => (String.mk (stripCL s)).toInt?

/-- Model of `pd.to_numeric(g["주문수량"], errors="coerce").fillna(0).sum()`. -/
def qtySum (g : List Row) : Int :=
  (g.map (fun r => (toNumCell r.qty).getD 0)).sum

/-- An unchanged data row as it appears in the output table. -/
def dataORow (r : Row) : ORow :=
  { code := .num r.code, prod := .str r.prod, opt := .str r.opt, qty := r.qty,
    recip := .str r.recip, addr := .str r.addr, note := .str r.note }

/-- The synthetic subtotal row built per address group (app.py lines 75-80):
every field the empty string, then 주문상품 = "합계", 주문수량 = the coerced
quantity sum, 주소 = the group's address. -/
def subtotal_row (a : PyStr) (g : List Row) : ORow :=
  { code := .str [], prod := .str "합계".data, opt := .str [],
    qty := .num (qtySum g), recip := .str [], addr := .str a, note := .str [] }

/-- Model of `df_sorted.groupby("주소", sort=False)`: one group per distinct
address in order of first occurrence, each group holding all rows with that
address in row order. -/
def groupby_addr : List Row → List (PyStr × List Row)
  | [] => []
  | r :: l =>
    (r.addr, r :: l.filter (fun x => decide (x.addr = r.addr))) ::
      groupby_addr (l.filter (fun x => !decide (x.addr = r.addr)))
termination_by l => l.length
decreasing_by
  simp only [List.length_cons]
  exact Nat.lt_succ_of_le (List.length_filter_le _ _)

/-- The grouping/subtotal engine (`build_picking_dataframe`, app.py lines
47-83; identically `build_picking_sheet`, pick.py lines 56-78): sort, group by
address, and emit each group's rows followed by its subtotal row. -/
def build_picking_dataframe (rs : List Row) : List ORow :=
  ((groupby_addr (sortRows rs)).map
    (fun p => p.2.map dataORow ++ [subtotal_row p.1 p.2])).flatten

/-! ### Lemmas about grouping -/

theorem groupby_addr_keys_mem : ∀ (l : List Row) (a : PyStr),
    a ∈ (groupby_addr l).map Prod.fst ↔ a ∈ l.map Row.addr
  | [], a => by simp [groupby_addr]
  | r :: l, a => by
    rw [groupby_addr]
    have ih := groupby_addr_keys_mem (l.filter (fun x => !decide (x.addr = r.addr))) a
    simp only [List.map_cons, List.mem_cons]
    rw [ih]
    simp only [List.mem_map, List.mem_filter, Bool.not_eq_true',
      decide_eq_false_iff_not]
    constructor
    · rintro (h | ⟨x, ⟨hx, _⟩, rfl⟩)
      · exact Or.inl h
      · exact Or.inr ⟨x, hx, rfl⟩
    · rintro (h | ⟨x, hx, rfl⟩)
      · exact Or.inl h
      · rcases eq_or_ne x.addr r.addr with he | hne
        · exact Or.inl he
        · exact Or.inr ⟨x, ⟨hx, hne⟩, rfl⟩
termination_by l => l.length
decreasing_by
  simp only [List.length_cons]
  exact Nat.lt_succ_of_le (List.length_filter_le _ _)

theorem groupby_addr_keys_nodup : ∀ l : List Row,
    ((groupby_addr l).map Prod.fst).Nodup
  | [] => by simp [groupby_addr]
  | r :: l => by
    rw [groupby_addr]
    simp only [List.map_cons, List.nodup_cons]
    refine ⟨?_, groupby_addr_keys_nodup _⟩
    intro hmem
    rw [groupby_addr_keys_mem] at hmem
    simp only [List.mem_map, List.mem_filter, Bool.not_eq_true',
      decide_eq_false_iff_not] at hmem
    obtain ⟨x, ⟨_, hne⟩, hxa⟩ := hmem
    exact hne hxa
termination_by l => l.length
decreasing_by
  simp only [List.length_cons]
  exact Nat.lt_succ_of_le (List.length_filter_le _ _)

theorem groupby_addr_snd_eq : ∀ (l : List Row), ∀ p ∈ groupby_addr l,
    p.2 = l.filter (fun x => decide (x.addr = p.1))
  | [] => by simp [groupby_addr]
  | r :: l => by
    intro p hp
    rw [groupby_addr] at hp
    rcases List.mem_cons.1 hp with rfl | hp
    · rw [List.filter_cons, if_pos (by simp)]
    · have ih := groupby_addr_snd_eq _ p hp
      have hkey : p.1 ∈ (l.filter (fun x => !decide (x.addr = r.addr))).map Row.addr := by
        rw [← groupby_addr_keys_mem]
        exact List.mem_map_of_mem Prod.fst hp
      simp only [List.mem_map, List.mem_filter, Bool.not_eq_true',
        decide_eq_false_iff_not] at hkey
      obtain ⟨x, ⟨_, hne⟩, hxa⟩ := hkey
      have hp1 : p.1 ≠ r.addr := hxa ▸ hne
      rw [ih, List.filter_filter, List.filter_cons,
        if_neg (by simp only [decide_eq_true_eq]; exact fun h => hp1 h.symm)]
      refine List.filter_congr (fun x _ => ?_)
      by_cases hx1 : x.addr = p.1
      · have hxr : ¬ x.addr = r.addr := fun h => hp1 (hx1.symm.trans h)
        simp [hx1, hxr, hp1]
      · simp [hx1]
termination_by l => l.length
decreasing_by
  simp only [List.length_cons]
  exact Nat.lt_succ_of_le (List.length_filter_le _ _)

theorem length_filter_partition {α : Type} (p : α → Bool) : ∀ l : List α,
    (l.filter p).length + (l.filter (fun x => !p x)).length = l.length
  | [] => rfl
  | a :: l => by
    by_cases h : p a
    · rw [List.filter_cons_of_pos h, List.filter_cons_of_neg (by simp [h])]
      simp only [List.length_cons]
      have := length_filter_partition p l
      omega
    · rw [List.filter_cons_of_neg h, List.filter_cons_of_pos (by simp [h])]
      simp only [List.length_cons]
      have := length_filter_partition p l
      omega

theorem groupby_addr_len : ∀ l : List Row,
    ((groupby_addr l).map (fun p => p.2.length)).sum = l.length
  | [] => by simp [groupby_addr]
  | r :: l => by
    rw [groupby_addr]
    simp only [List.map_cons, List.sum_cons, List.length_cons]
    rw [groupby_addr_len (l.filter (fun x => !decide (x.addr = r.addr)))]
    have := length_filter_partition (fun x : Row => decide (x.addr = r.addr)) l
    omega
termination_by l => l.length
decreasing_by
  simp only [List.length_cons]
  exact Nat.lt_succ_of_le (List.length_filter_le _ _)

theorem qtySum_perm {g h : List Row} (hp : List.Perm g h) : qtySum g = qtySum h :=
  (hp.map _).sum_eq

/-- C1. The grouping/subtotal engine forms one group per distinct input
address (no duplicates, and exactly the addresses appearing in the input), the
subtotal row it emits for a group carries the sentinel "합계" as product,
the coerced quantity sum of that address's input rows as quantity, the group's
address, and the empty string in every other field, and the output is exactly
the groups' rows each followed by their subtotal row. -/
theorem subtotal_rows_per_address (rs : List Row) :
    (∀ a : PyStr, a ∈ (groupby_addr (sortRows rs)).map Prod.fst ↔ a ∈ rs.map Row.addr)
  ∧ ((groupby_addr (sortRows rs)).map Prod.fst).Nodup
  ∧ (∀ p ∈ groupby_addr (sortRows rs),
      subtotal_row p.1 p.2 =
        { code := .str [], prod := .str "합계".data, opt := .str [],
          qty := .num (qtySum (rs.filter (fun r => decide (r.addr = p.1)))),
          recip := .str [], addr := .str p.1, note := .str [] })
  ∧ build_picking_dataframe rs
      = ((groupby_addr (sortRows rs)).map
          (fun p => p.2.map dataORow ++ [subtotal_row p.1 p.2])).flatten := by
  refine ⟨?_, groupby_addr_keys_nodup _, ?_, rfl⟩
  · intro a
    rw [groupby_addr_keys_mem]
    exact List.Perm.mem_iff ((List.mergeSort_perm rs rowLE).map Row.addr)
  · intro p hp
    have hsnd := groupby_addr_snd_eq _ p hp
    have hq : qtySum p.2 = qtySum (rs.filter (fun r => decide (r.addr = p.1))) := by
      rw [hsnd]
      exact qtySum_perm ((List.mergeSort_perm rs rowLE).filter _)
    unfold subtotal_row
    rw [hq]

/-- Example row used by the C1 witness. -/
def wRow : Row :=
  { code := 1, prod := [], opt := [], qty := Val.num 2, recip := [],
    addr := "X".data, note := [] }

/-- Witness for C1 on a one-row table. -/
theorem subtotal_rows_per_address_witness :
    ("X".data, [wRow]) ∈ groupby_addr (sortRows [wRow])
  ∧ subtotal_row "X".data [wRow]
      = { code := .str [], prod := .str "합계".data, opt := .str [],
          qty := .num (qtySum ([wRow].filter (fun r => decide (r.addr = "X".data)))),
          recip := .str [], addr := .str "X".data, note := .str [] } := by
  have hmem : ("X".data, [wRow]) ∈ groupby_addr (sortRows [wRow]) := by
    simp [sortRows, List.mergeSort, groupby_addr, wRow]
  exact ⟨hmem, (subtotal_rows_per_address _).2.2.1 _ hmem⟩

/-- C3. The output table length is the input row count plus the number of
distinct input addresses. -/
theorem output_length (rs : List Row) :
    (build_picking_dataframe rs).length
      = rs.length + ((rs.map Row.addr).dedup).length := by
  unfold build_picking_dataframe
  rw [List.length_flatten, List.map_map]
  have h1 : ((groupby_addr (sortRows rs)).map
      (List.length ∘ fun p => p.2.map dataORow ++ [subtotal_row p.1 p.2]))
      = (groupby_addr (sortRows rs)).map (fun p => p.2.length + 1) := by
    refine List.map_congr_left (fun p _ => ?_)
    simp
  rw [h1]
  have h2 : ∀ L : List (PyStr × List Row),
      (L.map (fun p => p.2.length + 1)).sum = (L.map (fun p => p.2.length)).sum + L.length := by
    intro L
    induction L with
    | nil => rfl
    | cons a L ih =>
      simp only [List.map_cons, List.sum_cons, List.length_cons, ih]
      omega
  rw [h2, groupby_addr_len]
  have hlen : (sortRows rs).length = rs.length :=
    (List.mergeSort_perm rs rowLE).length_eq
  rw [hlen]
  have hkeys : List.Perm ((groupby_addr (sortRows rs)).map Prod.fst)
      ((rs.map Row.addr).dedup) := by
    refine (List.perm_ext_iff_of_nodup (groupby_addr_keys_nodup _)
      (List.nodup_dedup _)).2 (fun a => ?_)
    rw [groupby_addr_keys_mem, List.mem_dedup]
    exact List.Perm.mem_iff ((List.mergeSort_perm rs rowLE).map Row.addr)
  have hglen : (groupby_addr (sortRows rs)).length
      = ((rs.map Row.addr).dedup).length := by
    rw [← List.length_map (groupby_addr (sortRows rs)) Prod.fst]
    exact hkeys.length_eq
  omega

/-! ### C2: the sort is stable by (address ascending, code descending) -/

theorem rowLE_iff {x y : Row} :
    rowLE x y = true ↔ (x.addr < y.addr ∨ (x.addr = y.addr ∧ y.code ≤ x.code)) := by
  unfold rowLE
  simp [Bool.or_eq_true, Bool.and_eq_true]

theorem rowLE_trans : ∀ x y z : Row, rowLE x y → rowLE y z → rowLE x z := by
  intro x y z hxy hyz
  rw [rowLE_iff] at *
  rcases hxy with h1 | ⟨h1, h1c⟩
  · rcases hyz with h2 | ⟨h2, _⟩
    · exact Or.inl (lt_trans h1 h2)
    · exact Or.inl (h2 ▸ h1)
  · rcases hyz with h2 | ⟨h2, h2c⟩
    · exact Or.inl (h1 ▸ h2)
    · exact Or.inr ⟨h1.trans h2, le_trans h2c h1c⟩

theorem rowLE_total : ∀ x y : Row, rowLE x y || rowLE y x := by
  intro x y
  rcases lt_trichotomy x.addr y.addr with h | h | h
  · simp [rowLE_iff.2 (Or.inl h)]
  · rcases le_total x.code y.code with hc | hc
    · have hyx : rowLE y x = true := rowLE_iff.2 (Or.inr ⟨h.symm, hc⟩)
      simp [hyx]
    · have hxy : rowLE x y = true := rowLE_iff.2 (Or.inr ⟨h, hc⟩)
      simp [hxy]
  · have hyx : rowLE y x = true := rowLE_iff.2 (Or.inl h)
    simp [hyx]

theorem rowLE_both {x y : Row} (h1 : rowLE x y = true) (h2 : rowLE y x = true) :
    x.addr = y.addr ∧ x.code = y.code := by
  rw [rowLE_iff] at h1 h2
  rcases h1 with h1 | ⟨h1, h1c⟩
  · rcases h2 with h2 | ⟨h2, _⟩
    · exact absurd h2 (lt_asymm h1)
    · exact absurd (h2 ▸ h1) (lt_irrefl _)
  · rcases h2 with h2 | ⟨_, h2c⟩
    · exact absurd (h1 ▸ h2) (lt_irrefl _)
    · exact ⟨h1, le_antisymm h2c h1c⟩

theorem enumLE_rowLE_elim {x y : Nat × Row}
    (h : List.enumLE rowLE x y = true) :
    (x.2.addr < y.2.addr ∨ (x.2.addr = y.2.addr ∧ y.2.code < x.2.code))
    ∨ (x.2.addr = y.2.addr ∧ x.2.code = y.2.code ∧ x.1 ≤ y.1) := by
  unfold List.enumLE at h
  by_cases hxy : rowLE x.2 y.2 = true
  · by_cases hyx : rowLE y.2 x.2 = true
    · rw [if_pos hxy, if_pos hyx] at h
      obtain ⟨ha, hc⟩ := rowLE_both hxy hyx
      exact Or.inr ⟨ha, hc, by simpa using h⟩
    · rcases rowLE_iff.1 hxy with h1 | ⟨h1, h1c⟩
      · exact Or.inl (Or.inl h1)
      · refine Or.inl (Or.inr ⟨h1, lt_of_le_of_ne h1c (fun he => hyx ?_)⟩)
        exact rowLE_iff.2 (Or.inr ⟨h1.symm, he.ge⟩)
  · rw [if_neg hxy] at h
    exact absurd h (by simp)

/-- C2. The sort step is the stable sort by (address ascending, order-code
descending): its output is sorted under that comparison, is a permutation of
the input, and is the projection of a sorted permutation of the
position-tagged input in which rows that tie on both keys appear in
increasing original position - ties keep their input order. -/
theorem sort_stable_by_addr_code (rs : List Row) :
    (sortRows rs).Pairwise
      (fun x y => x.addr < y.addr ∨ (x.addr = y.addr ∧ y.code ≤ x.code))
  ∧ List.Perm (sortRows rs) rs
  ∧ ∃ p : List (Nat × Row),
      List.Perm p rs.enum
    ∧ p.map Prod.snd = sortRows rs
    ∧ p.Pairwise (fun x y =>
        (x.2.addr < y.2.addr ∨ (x.2.addr = y.2.addr ∧ y.2.code < x.2.code))
        ∨ (x.2.addr = y.2.addr ∧ x.2.code = y.2.code ∧ x.1 ≤ y.1)) := by
  refine ⟨?_, List.mergeSort_perm rs rowLE,
    rs.enum.mergeSort (List.enumLE rowLE), List.mergeSort_perm _ _,
    List.mergeSort_enum, ?_⟩
  · exact (List.sorted_mergeSort rowLE_trans rowLE_total rs).imp
      (fun h => rowLE_iff.1 h)
  · exact (List.sorted_mergeSort (List.enumLE_trans rowLE_trans)
      (List.enumLE_total rowLE_total) rs.enum).imp
      (fun h => enumLE_rowLE_elim h)


/-! ### C4: the three-row example -/

/-- Example row (code=5, addr="Seoul", qty=1) from the spec. -/
def exRow1 : Row :=
  { code := 5, prod := [], opt := [], qty := .num 1, recip := [],
    addr := "Seoul".data, note := [] }

/-- Example row (code=3, addr="Seoul", qty=2) from the spec. -/
def exRow2 : Row :=
  { code := 3, prod := [], opt := [], qty := .num 2, recip := [],
    addr := "Seoul".data, note := [] }

/-- Example row (code=9, addr="Busan", qty=3) from the spec. -/
def exRow3 : Row :=
  { code := 9, prod := [], opt := [], qty := .num 3, recip := [],
    addr := "Busan".data, note := [] }

/-- The example input table of the spec, in its original order. -/
def exInput : List Row := [exRow1, exRow2, exRow3]

/-- SUBTOTAL(Busan, 3) as a concrete output row. -/
def exSubB : ORow :=
  { code := .str [], prod := .str "합계".data, opt := .str [], qty := .num 3,
    recip := .str [], addr := .str "Busan".data, note := .str [] }

/-- SUBTOTAL(Seoul, 3) as a concrete output row. -/
def exSubS : ORow :=
  { code := .str [], prod := .str "합계".data, opt := .str [], qty := .num 3,
    recip := .str [], addr := .str "Seoul".data, note := .str [] }

theorem build_ex_eval : build_picking_dataframe exInput
    = [dataORow exRow3, subtotal_row "Busan".data [exRow3],
       dataORow exRow1, dataORow exRow2, subtotal_row "Seoul".data [exRow1, exRow2]] := by
  unfold build_picking_dataframe
  have hsort : sortRows exInput = [exRow3, exRow1, exRow2] := by
    simp [sortRows, exInput, List.mergeSort, List.splitInTwo, List.merge, rowLE,
      exRow1, exRow2, exRow3]
    decide
  rw [hsort]
  have hgrp : groupby_addr [exRow3, exRow1, exRow2]
      = [("Busan".data, [exRow3]), ("Seoul".data, [exRow1, exRow2])] := by
    simp [groupby_addr, exRow1, exRow2, exRow3]
  rw [hgrp]
  simp

/-- Counterexample to C4: on the example input the engine does NOT produce
the claimed sequence [Busan/9/3, Seoul/5/1, Seoul/3/2, SUBTOTAL(Busan,3),
SUBTOTAL(Seoul,3)] with both subtotals at the end. -/
theorem build_ex_claimed_order_false :
    build_picking_dataframe exInput
      ≠ [dataORow exRow3, dataORow exRow1, dataORow exRow2, exSubB, exSubS] := by
  rw [build_ex_eval]
  decide

/-- C4 (amended): each subtotal follows its own group, so the example input
produces [Busan/9/3, SUBTOTAL(Busan,3), Seoul/5/1, Seoul/3/2,
SUBTOTAL(Seoul,3)]. -/
theorem build_ex_interleaved_order :
    build_picking_dataframe exInput
      = [dataORow exRow3, exSubB, dataORow exRow1, dataORow exRow2, exSubS] := by
  rw [build_ex_eval]
  decide


/-! ### The document renderer's shading pass (build_picking_docx, app.py) -/

/-- Python `str()` of a cell. -/
def valText : Val → PyStr
  | .num n => (toString n).data
  | .str s => s

/-- The subtotal test of the renderer (app.py line 312):
`str(r.get("주문상품","")) == "합계" or "합계" in str(...)`. -/
def rowIsSum (o : ORow) : Bool :=
  decide (valText o.prod = "합계".data) || containsSub "합계".data (valText o.prod)

/-- The shading driver value (app.py line 314): the row's order-linkage code
as text. -/
def codeCell (o : ORow) : PyStr := valText o.code

/-- The normalized address used for grouping in the renderer (app.py line
258): `str(row["주소"]).strip()`. -/
def addrCell (o : ORow) : PyStr := stripCL (valText o.addr)

/-- Accumulating loop that splits the output table into contiguous
address-groups (app.py lines 253-269): `current_addr` / `current_rows`. -/
def docx_groups_aux (a : PyStr) (cur : List ORow) : List ORow → List (PyStr × List ORow)
  | [] => [(a, cur)]
  | r :: l =>
    if addrCell r = a then docx_groups_aux a (cur ++ [r]) l
    else (a, cur) :: docx_groups_aux (addrCell r) [r] l

/-- The renderer's group list: contiguous runs of equal normalized address. -/
def docx_groups : List ORow → List (PyStr × List ORow)
  | [] => []
  | r :: l => docx_groups_aux (addrCell r) [r] l

/-- The shading loop over one group's rows (app.py lines 311-323) starting
from a given last-seen code and shading state: returns each row's shading
flag and the final state.  A row toggles the state when it is not a subtotal
row and its code differs from the last-seen code; the row is shaded when the
state is on and it is not a subtotal row. -/
def shade_run (last : Option PyStr) (sh : Bool) : List ORow → List Bool × Bool
  | [] => ([], sh)
  | r :: rest =>
    let is_sum := rowIsSum r
    let code := codeCell r
    let upd := !is_sum && !decide (some code = last)
    let sh2 := if upd then !sh else sh
    let last2 := if upd then some code else last
    let res := shade_run last2 sh2 rest
    ((sh2 && !is_sum) :: res.1, res.2)

/-- The shading flags produced by `build_picking_docx` (app.py lines
284-323): for every group the loop re-initializes `last_code = None` and
`shade_on = False` (lines 308-309) before walking the group's rows. -/
def build_picking_docx_shading (df : List ORow) : List (List Bool) :=
  (docx_groups df).map (fun p => (shade_run none false p.2).1)

/-- The reading asserted by C8, kept only for comparison with the code: the
shading state carries over from each group's end into the next group while
the last-seen code still resets per group. -/
def shading_carry_spec_groups : Bool → List (PyStr × List ORow) → List (List Bool)
  | _, [] => []
  | sh, p :: rest =>
    (shade_run none sh p.2).1 :: shading_carry_spec_groups (shade_run none sh p.2).2 rest

/-- Whole-table shading under the carry-over reading of C8. -/
def shading_carry_spec (df : List ORow) : List (List Bool) :=
  shading_carry_spec_groups false (docx_groups df)

/-- A plain data row with a given code, used for the shading claims. -/
def gRow (code : PyStr) : ORow :=
  { code := .str code, prod := .str "상품".data, opt := .str [], qty := .num 1,
    recip := .str [], addr := .str "X".data, note := .str [] }

/-- The group's subtotal row, excluded from the toggle. -/
def gSum : ORow :=
  { code := .str [], prod := .str "합계".data, opt := .str [], qty := .num 5,
    recip := .str [], addr := .str "X".data, note := .str [] }

/-- C7. Within one address group whose data rows carry codes [a,a,b,b,c]
(with a subtotal row at the end, excluded from the toggle), the shading
states are [on,on,off,off,on]: the state flips exactly at each code-change
boundary. -/
theorem shading_toggle_pattern (a b c : PyStr) (hab : a ≠ b) (hbc : b ≠ c) :
    build_picking_docx_shading
        [gRow a, gRow a, gRow b, gRow b, gRow c, gSum]
      = [[true, true, false, false, true, false]] := by
  unfold build_picking_docx_shading
  have haddr : ∀ x : PyStr, addrCell (gRow x) = "X".data := fun _ => rfl
  have haddrS : addrCell gSum = "X".data := rfl
  have hg : docx_groups [gRow a, gRow a, gRow b, gRow b, gRow c, gSum]
      = [("X".data, [gRow a, gRow a, gRow b, gRow b, gRow c, gSum])] := by
    simp [docx_groups, docx_groups_aux, haddr, haddrS]
  rw [hg]
  have hsum : rowIsSum gSum = true := rfl
  have hdata : ∀ x : PyStr, rowIsSum (gRow x) = false := fun _ => rfl
  have hcode : ∀ x : PyStr, codeCell (gRow x) = x := fun _ => rfl
  simp [shade_run, hdata, hsum, hcode, hab, hbc, Ne.symm hab, Ne.symm hbc]

/-- Witness for C7 at codes A, A, B, B, C. -/
theorem shading_toggle_pattern_witness :
    ("A".data ≠ "B".data ∧ "B".data ≠ "C".data)
  ∧ build_picking_docx_shading
        [gRow "A".data, gRow "A".data, gRow "B".data, gRow "B".data,
         gRow "C".data, gSum]
      = [[true, true, false, false, true, false]] :=
  ⟨⟨by decide, by decide⟩,
    shading_toggle_pattern "A".data "B".data "C".data (by decide) (by decide)⟩

/-- A data row with a given code and address, used for the C8 example. -/
def hRow (code addr : PyStr) : ORow :=
  { code := .str code, prod := .str "상품".data, opt := .str [], qty := .num 1,
    recip := .str [], addr := .str addr, note := .str [] }

/-- Counterexample to C8: on a table with two one-row address groups both
carrying code "A", the code shades the first row of BOTH groups (the state is
re-initialized per group), while under the claimed carry-over reading the
second group's row would be unshaded (the carried state toggles off). -/
theorem shading_not_carried :
    build_picking_docx_shading [hRow "A".data "X".data, hRow "A".data "Y".data]
      = [[true], [true]]
  ∧ shading_carry_spec [hRow "A".data "X".data, hRow "A".data "Y".data]
      = [[true], [false]] := by
  constructor
  · decide
  · decide

theorem shade_run_first_nonsum : ∀ (l : List ORow) (i : Nat),
    i < l.length → (∀ o ∈ l.take i, rowIsSum o = true) →
    (∀ hi : i < l.length, rowIsSum (l.get ⟨i, hi⟩) = false) →
    ((shade_run none false l).1).getD i false = true
  | [], i, hi, _, _ => by simp at hi
  | r :: t, 0, hi, _, hns => by
    have h0 := hns hi
    simp only [List.get] at h0
    simp [shade_run, h0]
  | r :: t, i + 1, hi, htake, hns => by
    have hr : rowIsSum r = true := htake r (by
      simp [List.take_succ_cons])
    have ht : (shade_run none false (r :: t)).1
        = false :: (shade_run none false t).1 := by
      simp [shade_run, hr]
    rw [ht]
    simp only [List.getD_cons_succ]
    refine shade_run_first_nonsum t i (by simpa using hi) ?_ ?_
    · intro o ho
      exact htake o (by simp [List.take_succ_cons, ho])
    · intro hi2
      have := hns hi
      simpa using this

/-- C8 (amended). In the document renderer both the shading state and the
last-seen code are re-initialized at the start of every address group (the
state does NOT carry over); consequently each group's flags depend only on
that group's rows, and the first non-subtotal row of every group is always
shaded. -/
theorem shading_reset_per_group (df : List ORow) (p : PyStr × List ORow)
    (_hp : p ∈ docx_groups df) (i : Nat) (hi : i < p.2.length)
    (htake : ∀ o ∈ p.2.take i, rowIsSum o = true)
    (hns : rowIsSum (p.2.get ⟨i, hi⟩) = false) :
    ((shade_run none false p.2).1).getD i false = true
  ∧ build_picking_docx_shading df
      = (docx_groups df).map (fun q => (shade_run none false q.2).1) := by
  refine ⟨?_, rfl⟩
  exact shade_run_first_nonsum p.2 i hi htake (fun _ => hns)

/-- Witness for the amended C8 on a one-group table. -/
theorem shading_reset_per_group_witness :
    ("X".data, [hRow "A".data "X".data]) ∈ docx_groups [hRow "A".data "X".data]
  ∧ ((shade_run none false [hRow "A".data "X".data]).1).getD 0 false = true :=
  ⟨by decide,
    (shading_reset_per_group [hRow "A".data "X".data]
      ("X".data, [hRow "A".data "X".data]) (by decide) 0 (by decide)
      (by simp) (by decide)).1⟩


/-! ### Tracking-number reconciliation (final.py / app_customizable.py) -/

/-- Model of `_digits_only` (final.py lines 192-193; identically
app_customizable.py): drop every non-digit character. -/
def digits_only (s : PyStr) : PyStr :=
  s.filter (fun c => decide (48 ≤ c.toNat ∧ c.toNat ≤ 57))

/-- The last-order test of `classify_orders`: `"LO" in s.upper()`. -/
def hasLO (s : PyStr) : Bool := containsSub "LO".data (upperCL s)

/-- The function `classify_orders` (final.py lines 240-248, identically
app_customizable.py lines 914-928): strip each order id; ids containing
"LO" (case-insensitive) go to the lao bucket, remaining ids whose digits-only
form has exactly 16 characters go to the smartstore bucket, all others are
dropped.  The Python dicts are modelled as association lists in insertion
order. -/
def classify_orders : List (PyStr × PyStr) → List (PyStr × PyStr) × List (PyStr × PyStr)
  | [] => ([], [])
  | (o, t) :: rest =>
    let s := stripCL o
    let r := classify_orders rest
    if hasLO s then ((s, t) :: r.1, r.2)
    else if (digits_only s).length = 16 then (r.1, (s, t) :: r.2)
    else r

theorem classify_orders_cons_lo {o t : PyStr} {rest : List (PyStr × PyStr)}
    (h : hasLO (stripCL o) = true) :
    classify_orders ((o, t) :: rest)
      = ((stripCL o, t) :: (classify_orders rest).1, (classify_orders rest).2) := by
  rw [classify_orders]
  simp [h]

theorem classify_orders_cons_ss {o t : PyStr} {rest : List (PyStr × PyStr)}
    (h : hasLO (stripCL o) = false)
    (h16 : (digits_only (stripCL o)).length = 16) :
    classify_orders ((o, t) :: rest)
      = ((classify_orders rest).1, (stripCL o, t) :: (classify_orders rest).2) := by
  rw [classify_orders]
  simp [h, h16]

theorem classify_orders_cons_other {o t : PyStr} {rest : List (PyStr × PyStr)}
    (h : hasLO (stripCL o) = false)
    (h16 : (digits_only (stripCL o)).length ≠ 16) :
    classify_orders ((o, t) :: rest) = classify_orders rest := by
  rw [classify_orders]
  simp [h, h16]

/-- C9. Every order id whose stripped text contains "LO" case-insensitively
is classified into the lao bucket regardless of its digit count, and every
id without "LO" whose digits-only form has exactly 16 characters is
classified into the smartstore bucket. -/
theorem classify_orders_buckets (m : List (PyStr × PyStr)) (o t : PyStr)
    (hm : (o, t) ∈ m) :
    (hasLO (stripCL o) = true →
      stripCL o ∈ (classify_orders m).1.map Prod.fst)
  ∧ (hasLO (stripCL o) = false → (digits_only (stripCL o)).length = 16 →
      stripCL o ∈ (classify_orders m).2.map Prod.fst) := by
  induction m with
  | nil => simp at hm
  | cons p rest ih =>
    rcases List.mem_cons.1 hm with he | hm2
    · subst he
      constructor
      · intro hLO
        rw [classify_orders_cons_lo hLO]
        simp
      · intro hLO h16
        rw [classify_orders_cons_ss hLO h16]
        simp
    · have ihm := ih hm2
      obtain ⟨po, pt⟩ := p
      constructor
      · intro hLO
        by_cases h1 : hasLO (stripCL po) = true
        · rw [classify_orders_cons_lo h1]
          simp only [List.map_cons, List.mem_cons]
          exact Or.inr (ihm.1 hLO)
        · replace h1 : hasLO (stripCL po) = false := by simpa using h1
          by_cases h2 : (digits_only (stripCL po)).length = 16
          · rw [classify_orders_cons_ss h1 h2]
            exact ihm.1 hLO
          · rw [classify_orders_cons_other h1 h2]
            exact ihm.1 hLO
      · intro hLO h16
        by_cases h1 : hasLO (stripCL po) = true
        · rw [classify_orders_cons_lo h1]
          exact ihm.2 hLO h16
        · replace h1 : hasLO (stripCL po) = false := by simpa using h1
          by_cases h2 : (digits_only (stripCL po)).length = 16
          · rw [classify_orders_cons_ss h1 h2]
            simp only [List.map_cons, List.mem_cons]
            exact Or.inr (ihm.2 hLO h16)
          · rw [classify_orders_cons_other h1 h2]
            exact ihm.2 hLO h16

/-- Witness for C9: one id with "LO" and 17 digits, one plain 16-digit id. -/
theorem classify_orders_buckets_witness :
    (hasLO (stripCL "LO12345678901234567".data) = true
      ∧ stripCL "LO12345678901234567".data
          ∈ (classify_orders [("LO12345678901234567".data, "T1".data),
              ("1234567890123456".data, "T2".data)]).1.map Prod.fst)
  ∧ (hasLO (stripCL "1234567890123456".data) = false
      ∧ (digits_only (stripCL "1234567890123456".data)).length = 16
      ∧ stripCL "1234567890123456".data
          ∈ (classify_orders [("LO12345678901234567".data, "T1".data),
              ("1234567890123456".data, "T2".data)]).2.map Prod.fst) :=
  ⟨⟨by decide,
      (classify_orders_buckets
        [("LO12345678901234567".data, "T1".data),
         ("1234567890123456".data, "T2".data)]
        "LO12345678901234567".data "T1".data (by decide)).1 (by decide)⟩,
    ⟨by decide, by decide,
      (classify_orders_buckets
        [("LO12345678901234567".data, "T1".data),
         ("1234567890123456".data, "T2".data)]
        "1234567890123456".data "T2".data (by decide)).2 (by decide) (by decide)⟩⟩

/-- One row of the smartstore order file: the order id (주문번호), the
tracking cell (송장번호), the carrier cell (택배사), and the remaining
columns as opaque text. -/
structure SSRow where
  order : PyStr
  tracking : PyStr
  carrier : PyStr
  others : List PyStr
deriving DecidableEq

/-- The emptiness test used by `make_ss_filled_df` on the tracking and
carrier columns: `str.lower() == "nan"` or blank after strip. -/
def cellBlank (s : PyStr) : Bool :=
  decide (lowerCL s = "nan".data) || decide (stripCL s = [])

/-- Per-row update of `make_ss_filled_df` (final.py lines 264-278,
app_customizable.py lines 951-969): rows with a blank (or "nan") tracking
cell receive the mapped tracking number (empty when the order id has no
mapping, as `fillna("")`), other rows keep theirs; a blank carrier cell gets
the default carrier; nothing else changes. -/
def make_ss_filled_row (defCarrier : PyStr) (ss_map : List (PyStr × PyStr))
    (r : SSRow) : SSRow :=
  { r with
    tracking :=
      if cellBlank r.tracking then (ss_map.lookup r.order).getD [] else r.tracking,
    carrier := if cellBlank r.carrier then defCarrier else r.carrier }

/-- The function `make_ss_filled_df` (final.py lines 257-278, identically
app_customizable.py lines 942-969 up to the default carrier constant):
without an order file (or with an empty one) it emits the two-column mapping
plus the default carrier; otherwise it updates the order file row by row. -/
def make_ss_filled_df (defCarrier : PyStr) (ss_map : List (PyStr × PyStr)) :
    Option (List SSRow) → List SSRow
  | none => ss_map.map (fun p => ⟨p.1, p.2, defCarrier, []⟩)
  | some df =>
    if df.isEmpty then ss_map.map (fun p => ⟨p.1, p.2, defCarrier, []⟩)
    else df.map (make_ss_filled_row defCarrier ss_map)

/-- C10. On a non-empty smartstore order file the fill is row-wise: a row
whose tracking cell is not blank (and not "nan") keeps it unchanged; a row
with a blank tracking cell receives the mapped tracking number of its order
id (empty when unmapped); and the order id and every column other than
송장번호 and 택배사 are unchanged in every row. -/
theorem make_ss_filled_frame (defCarrier : PyStr) (m : List (PyStr × PyStr))
    (df : List SSRow) (hne : df ≠ []) :
    make_ss_filled_df defCarrier m (some df) = df.map (make_ss_filled_row defCarrier m)
  ∧ ∀ r ∈ df,
      (cellBlank r.tracking = false →
        (make_ss_filled_row defCarrier m r).tracking = r.tracking)
    ∧ (cellBlank r.tracking = true →
        (make_ss_filled_row defCarrier m r).tracking = (m.lookup r.order).getD [])
    ∧ (make_ss_filled_row defCarrier m r).order = r.order
    ∧ (make_ss_filled_row defCarrier m r).others = r.others := by
  refine ⟨?_, ?_⟩
  · simp only [make_ss_filled_df]
    rw [if_neg (by simp only [List.isEmpty_iff]; exact hne)]
  · intro r _
    refine ⟨?_, ?_, rfl, rfl⟩
    · intro hb
      unfold make_ss_filled_row
      simp [hb]
    · intro hb
      unfold make_ss_filled_row
      simp [hb]

/-- Witness for C10 on a two-row file: one row with a tracking number, one
without. -/
theorem make_ss_filled_frame_witness :
    ([⟨"O1".data, "T0".data, [], []⟩,
      ⟨"O2".data, [], [], []⟩] : List SSRow) ≠ []
  ∧ make_ss_filled_df "CJ".data [("O2".data, "T9".data)]
        (some [⟨"O1".data, "T0".data, [], []⟩, ⟨"O2".data, [], [], []⟩])
      = [⟨"O1".data, "T0".data, [], []⟩,
         ⟨"O2".data, [], [], []⟩].map
          (make_ss_filled_row "CJ".data [("O2".data, "T9".data)]) :=
  ⟨by decide,
    (make_ss_filled_frame "CJ".data [("O2".data, "T9".data)]
      [⟨"O1".data, "T0".data, [], []⟩, ⟨"O2".data, [], [], []⟩] (by decide)).1⟩


end PickSpec
